import Mathlib

/-!
Shallow embedding of `src/get_kokkai_session_list.py`: a script that fetches
plenary-session meeting records from the kokkai meeting-list API, aggregates
per-session start/end dates, and writes a TSV summary.

Python `datetime.date` values are modelled as year/month/day triples compared
lexicographically; JSON scalar values that may be strings or integers are
modelled by `JVal`; fallible Python code (raising `RuntimeError`/`ValueError`)
is modelled with `Except`; the unbounded `while True` pagination loop is
modelled with explicit fuel; the HTTP API is modelled as a function from the
`recordPosition` parameter to a response.
-/

/-- Model of Python `datetime.date`: a calendar date as a year/month/day
triple.  `date.fromisoformat` only constructs valid dates, and valid dates
compare chronologically, which coincides with lexicographic comparison of
the triples. -/
structure Date where
  year : Nat
  month : Nat
  day : Nat
deriving DecidableEq, Repr

/-- Python `date <` comparison: lexicographic on (year, month, day). -/
def dlt (a b : Date) : Bool :=
  decide (a.year < b.year) ||
    (decide (a.year = b.year) &&
      (decide (a.month < b.month) ||
        (decide (a.month = b.month) && decide (a.day < b.day))))

/-- Leap-year test, as in Python's `calendar.isleap` /
`datetime`'s internal rule. -/
def isLeapYear (y : Nat) : Bool :=
  (y % 4 == 0 && y % 100 != 0) || y % 400 == 0

/-- Number of days in the given month of the given year. -/
def daysInMonth (y m : Nat) : Nat :=
  if m == 2 then (if isLeapYear y then 29 else 28)
  else if m == 4 || m == 6 || m == 9 || m == 11 then 30
  else 31

/-- Value of a decimal digit character. -/
def digitVal (c : Char) : Nat := c.toNat - 48

/-- Model of Python `datetime.date.fromisoformat` on its canonical
`YYYY-MM-DD` input format (the format this API transports): ten characters,
digits and hyphens in the right places, and a valid calendar date with
year at least 1 (Python's `MINYEAR`).  Returns `none` where Python raises
`ValueError`. -/
def fromisoformat (s : String) : Option Date :=
  match s.toList with
  | [y1, y2, y3, y4, h1, m1, m2, h2, d1, d2] =>
    if y1.isDigit && y2.isDigit && y3.isDigit && y4.isDigit && h1 == '-' &&
        m1.isDigit && m2.isDigit && h2 == '-' && d1.isDigit && d2.isDigit then
      let y := digitVal y1 * 1000 + digitVal y2 * 100 + digitVal y3 * 10 + digitVal y4
      let mo := digitVal m1 * 10 + digitVal m2
      let dy := digitVal d1 * 10 + digitVal d2
      if 1 ≤ y && 1 ≤ mo && mo ≤ 12 && 1 ≤ dy && dy ≤ daysInMonth y mo then
        some ⟨y, mo, dy⟩
      else none
    else none
  | _ => none

/-- Left-pad the decimal rendering of `n` with zeros to width `w`. -/
def natPad (w n : Nat) : String :=
  let s := toString n
  String.mk (List.replicate (w - s.length) '0') ++ s

/-- Model of Python `date.isoformat`: `YYYY-MM-DD` with zero padding. -/
def Date.isoformat (d : Date) : String :=
  natPad 4 d.year ++ "-" ++ natPad 2 d.month ++ "-" ++ natPad 2 d.day

/-- A JSON scalar that may arrive as a string or as an integer (the API
delivers numbers like `session` as strings; Python's `int(...)` accepts
both). -/
inductive JVal where
  | s (v : String)
  | i (v : Int)
deriving DecidableEq, Repr

/-- Parse a digit run as a natural number, `none` if empty or non-digits. -/
def digitsToNat (ds : List Char) : Option Nat :=
  if !ds.isEmpty && ds.all Char.isDigit then
    some (ds.foldl (fun a c => a * 10 + digitVal c) 0)
  else none

/-- Model of Python `int(...)` applied to a string: optional surrounding
spaces, an optional sign, then a nonempty digit run; `none` where Python
raises `ValueError`. -/
def strToInt (s : String) : Option Int :=
  let cs := (s.toList.dropWhile (· == ' ')).reverse.dropWhile (· == ' ') |>.reverse
  match cs with
  | '+' :: ds => (digitsToNat ds).map Int.ofNat
  | '-' :: ds => (digitsToNat ds).map (fun n => -(Int.ofNat n))
  | ds => (digitsToNat ds).map Int.ofNat

/-- Model of Python `int(...)` on a JSON scalar: identity on integers,
string parsing on strings. -/
def pyInt : JVal → Option Int
  | .i v => some v
  | .s v => strToInt v

/-- A raw meeting record as the script sees it: a JSON object that may or
may not carry `session` and `date` fields (other fields are unused by the
script and omitted from the model). -/
structure MeetingRecord where
  session : Option JVal
  date : Option String
deriving DecidableEq, Repr

section Quick

example : fromisoformat "2023-01-23" = some ⟨2023, 1, 23⟩ := by decide
example : fromisoformat "2023-02-30" = none := by decide
example : fromisoformat "not-a-date" = none := by decide
example : pyInt (.s "210") = some 210 := by decide
example : dlt ⟨2023, 1, 23⟩ ⟨2023, 6, 21⟩ = true := by decide

end Quick

/-- Decidable equality for `Except`, so concrete runs can be checked by
`decide`. -/
instance {ε α : Type} [DecidableEq ε] [DecidableEq α] : DecidableEq (Except ε α) :=
  fun a b =>
  match a, b with
  | .error e₁, .error e₂ =>
    if h : e₁ = e₂ then .isTrue (h ▸ rfl) else .isFalse (fun hh => h (Except.error.inj hh))
  | .error _, .ok _ => .isFalse (fun hh => Except.noConfusion hh)
  | .ok _, .error _ => .isFalse (fun hh => Except.noConfusion hh)
  | .ok a₁, .ok a₂ =>
    if h : a₁ = a₂ then .isTrue (h ▸ rfl) else .isFalse (fun hh => h (Except.ok.inj hh))

/-! ## Fetcher (`fetch_meeting_records`, source lines 26-58) -/

/-- The `meetingRecord` field of a JSON response: absent, present but not a
list, or a list of records. -/
inductive RecField where
  | absent
  | notList
  | list (rs : List MeetingRecord)
deriving DecidableEq, Repr

/-- An HTTP response as the script inspects it: the status code and the
decoded JSON body's `meetingRecord` field. -/
structure HttpResponse where
  status : Nat
  meetingRecord : RecField
deriving DecidableEq, Repr

/-- Errors raised inside `fetch_meeting_records`: `http` models the
`RuntimeError` on a bad status code; the two shape errors model the
`ValueError`s for a missing or non-list `meetingRecord` field. -/
inductive FetchError where
  | http (status : Nat)
  | shapeMissing
  | shapeNotList
deriving DecidableEq, Repr

/-- One iteration step plus recursion of the `while True` pagination loop.
`api` maps a `recordPosition` value to the response (the other query
parameters are fixed by the date range for the whole loop); `fuel` bounds
the number of iterations, `none` meaning the bound was hit; `trace`
accumulates the `recordPosition` of every request issued, in order; `acc`
is `objListMeetingRecord`.  Mirrors source lines 32-57: check status,
check the `meetingRecord` field exists and is a list, stop on an empty
page, otherwise extend the accumulator and advance the position by the
page size 100. -/
def fetch_go (api : Nat → HttpResponse) :
    Nat → Nat → List Nat → List MeetingRecord →
    Option (List Nat × Except FetchError (List MeetingRecord))
  | 0, _, _, _ => none
  | fuel + 1, pos, trace, acc =>
    let resp := api pos
    if resp.status ≠ 200 then some (trace ++ [pos], .error (.http resp.status))
    else
      match resp.meetingRecord with
      | .absent => some (trace ++ [pos], .error .shapeMissing)
      | .notList => some (trace ++ [pos], .error .shapeNotList)
      | .list [] => some (trace ++ [pos], .ok acc)
      | .list (r :: rs) => fetch_go api fuel (pos + 100) (trace ++ [pos]) (acc ++ (r :: rs))

/-- `fetch_meeting_records`: run the pagination loop from
`iRecordPosition = 1` with empty accumulator, also returning the trace of
requested `recordPosition` values. -/
def fetch_meeting_records (api : Nat → HttpResponse) (fuel : Nat) :
    Option (List Nat × Except FetchError (List MeetingRecord)) :=
  fetch_go api fuel 1 [] []

/-- The record list carried by the response at position `p` (empty for a
missing or non-list field); used to state what the fetch concatenates. -/
def pageOf (api : Nat → HttpResponse) (p : Nat) : List MeetingRecord :=
  match (api p).meetingRecord with
  | .list rs => rs
  | _ => []

/-! ## Aggregator (`aggregate_sessions`, source lines 62-95) -/

/-- Errors raised inside `aggregate_sessions`: `shape` models the
`ValueError` for a record missing `session` or `date`; `sessionParse`
the `ValueError` from `int(...)`; `dateParse` the `ValueError` from
`date.fromisoformat`. -/
inductive AggError where
  | shape
  | sessionParse
  | dateParse
deriving DecidableEq, Repr

/-- The validation and parsing prefix of the loop body (source lines
66-71): both fields must be present, `session` must coerce with `int`,
`date` must parse as an ISO date. -/
def parseRecordE (r : MeetingRecord) : Except AggError (Int × Date) :=
  match r.session, r.date with
  | none, _ => .error .shape
  | some _, none => .error .shape
  | some v, some ds =>
    match pyInt v with
    | none => .error .sessionParse
    | some k =>
      match fromisoformat ds with
      | none => .error .dateParse
      | some d => .ok (k, d)

/-- `objSessionDateMap`: an insertion-ordered association list from session
number to the (startDate, endDate) pair, modelling the Python dict. -/
abbrev SessionMap := List (Int × Date × Date)

/-- Dict membership/lookup: first binding of the key, if any. -/
def lookupA (m : SessionMap) (k : Int) : Option (Date × Date) :=
  match m with
  | [] => none
  | (k', v) :: t => if k' == k then some v else lookupA t k

/-- Dict value replacement at an existing key (keys stay in place). -/
def updateA (m : SessionMap) (k : Int) (v : Date × Date) : SessionMap :=
  match m with
  | [] => []
  | (k', v') :: t => if k' == k then (k, v) :: t else (k', v') :: updateA t k v

/-- The map-update part of the loop body (source lines 73-82): first
sighting of a session inserts `(date, date)` at the end (Python dicts are
insertion ordered); a later sighting lowers the start if the new date
precedes it and raises the end if the new date exceeds it. -/
def step2 (m : SessionMap) (k : Int) (d : Date) : SessionMap :=
  match lookupA m k with
  | none => m ++ [(k, d, d)]
  | some (lo, hi) =>
      updateA m k (if dlt d lo then d else lo, if dlt hi d then d else hi)

/-- One full loop-body step over a raw record: validate/parse, then update
the map; a parse failure aborts the whole aggregation. -/
def aggStep (m : SessionMap) (r : MeetingRecord) : Except AggError SessionMap :=
  match parseRecordE r with
  | .error e => .error e
  | .ok (k, d) => .ok (step2 m k d)

/-- The record loop of `aggregate_sessions` (source lines 65-82). -/
def aggFold : List MeetingRecord → SessionMap → Except AggError SessionMap
  | [], m => .ok m
  | r :: rs, m =>
    match aggStep m r with
    | .error e => .error e
    | .ok m' => aggFold rs m'

/-- An output row of `aggregate_sessions` (source lines 86-92): the session
number and the two dates rendered with `isoformat`. -/
structure SessionRow where
  iSession : Int
  pszStartDate : String
  pszEndDate : String
deriving DecidableEq, Repr

/-- Convert one map entry to an output row (source lines 85-92). -/
def toRow (e : Int × Date × Date) : SessionRow :=
  ⟨e.1, e.2.1.isoformat, e.2.2.isoformat⟩

/-- Stable insertion of a row into a list sorted descending by session
number, keeping an earlier row before later rows with an equal key, as
Python's stable `sorted(..., reverse=True)` does. -/
def insertRow (x : SessionRow) : List SessionRow → List SessionRow
  | [] => [x]
  | y :: ys => if y.iSession ≤ x.iSession then x :: y :: ys else y :: insertRow x ys

/-- `sorted(objListSession, key=lambda item: item["iSession"], reverse=True)`:
a stable sort descending by session number (source line 94). -/
def sortRows : List SessionRow → List SessionRow
  | [] => []
  | x :: xs => insertRow x (sortRows xs)

/-- `aggregate_sessions`: fold the records into the session map, project the
entries to rows in insertion order, and sort them descending by session
number. -/
def aggregate_sessions (l : List MeetingRecord) : Except AggError (List SessionRow) :=
  match aggFold l [] with
  | .error e => .error e
  | .ok m => .ok (sortRows (m.map toRow))

/-! ## Writer (`write_tsv`, source lines 99-110) and pipeline -/

/-- `write_tsv` modelled as the text written to the output file: a header
row then one row per session, tab-separated, with the CSV writer's default
`\r\n` line terminator. -/
def write_tsv (rows : List SessionRow) : String :=
  "session\tstart_date\tend_date\r\n" ++
    String.join (rows.map fun r =>
      toString r.iSession ++ "\t" ++ r.pszStartDate ++ "\t" ++ r.pszEndDate ++ "\r\n")

/-- The aggregate-then-write tail of `main` (source lines 119-120), given
the fetched records: an error anywhere means no output content is ever
produced. -/
def run_pipeline (l : List MeetingRecord) : Except AggError String :=
  match aggregate_sessions l with
  | .error e => .error e
  | .ok rows => .ok (write_tsv rows)

/-! ## Helper notions used to state and prove the claims -/

/-- Minimum of two dates under the Python `<` comparison. -/
def dmin (a b : Date) : Date := if dlt a b then a else b

/-- Maximum of two dates under the Python `<` comparison. -/
def dmax (a b : Date) : Date := if dlt a b then b else a

/-- The widening of an optional (start, end) pair by one more date, exactly
as one loop iteration of the aggregator changes one map entry. -/
def widen : Option (Date × Date) → Date → Option (Date × Date)
  | none, d => some (d, d)
  | some (lo, hi), d => some (if dlt d lo then d else lo, if dlt hi d then d else hi)

/-- One fold step over an already-parsed (session, date) pair. -/
def stepP (m : SessionMap) (p : Int × Date) : SessionMap := step2 m p.1 p.2

/-- The dates carried by the pairs with session key `k`, in order. -/
def datesFor (k : Int) (ps : List (Int × Date)) : List Date :=
  (ps.filter (fun p => p.1 == k)).map Prod.snd

/-- The session keys bound in the map, in insertion order. -/
def keysA (m : SessionMap) : List Int := m.map Prod.fst

/-- The parsed session numbers of the records that parse, in order. -/
def sessionsOf (l : List MeetingRecord) : List Int :=
  l.filterMap fun r =>
    match parseRecordE r with
    | .ok p => some p.1
    | .error _ => none

/-- The parsed dates of the records that parse with session number `k`. -/
def recSessionDates (l : List MeetingRecord) (k : Int) : List Date :=
  l.filterMap fun r =>
    match parseRecordE r with
    | .ok p => if p.1 == k then some p.2 else none
    | .error _ => none

/-- Boolean success test for a parse result. -/
def isOkE (x : Except AggError (Int × Date)) : Bool :=
  match x with
  | .ok _ => true
  | .error _ => false

/-- Total version of `parseRecordE`, defaulting on failure; used to relate
permuted inputs. -/
def parseDef (r : MeetingRecord) : Int × Date :=
  match parseRecordE r with
  | .ok p => p
  | .error _ => (0, ⟨1, 1, 1⟩)

/-! ### Order facts for `dlt` -/

theorem dlt_irrefl (a : Date) : dlt a a = false := by
  rcases a with ⟨a1, a2, a3⟩
  simp [dlt]

theorem dlt_asymm {a b : Date} (h : dlt a b = true) : dlt b a = false := by
  rcases a with ⟨a1, a2, a3⟩; rcases b with ⟨b1, b2, b3⟩
  simp only [dlt, Bool.or_eq_true, Bool.and_eq_true, decide_eq_true_eq] at h
  simp only [dlt, Bool.or_eq_false_iff, Bool.and_eq_false_iff,
    decide_eq_false_iff_not, decide_eq_true_eq]
  omega

theorem eq_of_dlt_false {a b : Date} (h1 : dlt a b = false) (h2 : dlt b a = false) :
    a = b := by
  rcases a with ⟨a1, a2, a3⟩; rcases b with ⟨b1, b2, b3⟩
  simp only [dlt, Bool.or_eq_false_iff, Bool.and_eq_false_iff,
    decide_eq_false_iff_not, decide_eq_true_eq] at h1 h2
  simp only [Date.mk.injEq]
  omega

theorem dlt_false_trans {a b c : Date} (h1 : dlt b a = false) (h2 : dlt c b = false) :
    dlt c a = false := by
  rcases a with ⟨a1, a2, a3⟩; rcases b with ⟨b1, b2, b3⟩; rcases c with ⟨c1, c2, c3⟩
  simp only [dlt, Bool.or_eq_false_iff, Bool.and_eq_false_iff,
    decide_eq_false_iff_not, decide_eq_true_eq] at h1 h2 ⊢
  omega

/-! ### `dmin` / `dmax` facts -/

theorem dmin_cases (a b : Date) : dmin a b = a ∨ dmin a b = b := by
  unfold dmin; split <;> simp

theorem dmax_cases (a b : Date) : dmax a b = a ∨ dmax a b = b := by
  unfold dmax; split <;> simp

theorem dmin_le_left (a b : Date) : dlt a (dmin a b) = false := by
  unfold dmin; split
  · exact dlt_irrefl a
  · rename_i h; exact Bool.eq_false_iff.mpr h

theorem dmin_le_right (a b : Date) : dlt b (dmin a b) = false := by
  unfold dmin; split
  · rename_i h; exact dlt_asymm h
  · exact dlt_irrefl b

theorem dmax_ge_left (a b : Date) : dlt (dmax a b) a = false := by
  unfold dmax; split
  · rename_i h; exact dlt_asymm h
  · exact dlt_irrefl a

theorem dmax_ge_right (a b : Date) : dlt (dmax a b) b = false := by
  unfold dmax; split
  · exact dlt_irrefl b
  · rename_i h; exact Bool.eq_false_iff.mpr h

/-! ### `widen` facts -/

theorem widen_some (lo hi d : Date) :
    widen (some (lo, hi)) d = some (dmin d lo, dmax hi d) := rfl

theorem dmin_left_comm (a b c : Date) : dmin a (dmin b c) = dmin b (dmin a c) := by
  rcases a with ⟨a1, a2, a3⟩; rcases b with ⟨b1, b2, b3⟩; rcases c with ⟨c1, c2, c3⟩
  simp only [dmin, dlt]
  split_ifs <;>
    all_goals
      first
      | rfl
      | (simp_all only [Bool.or_eq_true, Bool.and_eq_true, decide_eq_true_eq,
          Bool.or_eq_false_iff, Bool.and_eq_false_iff, decide_eq_false_iff_not,
          Date.mk.injEq, not_or, not_and, not_lt]
         omega)

theorem dmax_right_comm (x : Date) (a b : Date) :
    dmax (dmax x a) b = dmax (dmax x b) a := by
  rcases x with ⟨x1, x2, x3⟩; rcases a with ⟨a1, a2, a3⟩; rcases b with ⟨b1, b2, b3⟩
  simp only [dmax, dlt]
  split_ifs <;>
    all_goals
      first
      | rfl
      | (simp_all only [Bool.or_eq_true, Bool.and_eq_true, decide_eq_true_eq,
          Bool.or_eq_false_iff, Bool.and_eq_false_iff, decide_eq_false_iff_not,
          Date.mk.injEq, not_or, not_and, not_lt]
         omega)

theorem dmin_comm (a b : Date) : dmin a b = dmin b a := by
  rcases a with ⟨a1, a2, a3⟩; rcases b with ⟨b1, b2, b3⟩
  simp only [dmin, dlt]
  split_ifs <;>
    all_goals
      first
      | rfl
      | (simp_all only [Bool.or_eq_true, Bool.and_eq_true, decide_eq_true_eq,
          Bool.or_eq_false_iff, Bool.and_eq_false_iff, decide_eq_false_iff_not,
          Date.mk.injEq, not_or, not_and, not_lt]
         omega)

theorem dmax_comm (a b : Date) : dmax a b = dmax b a := by
  rcases a with ⟨a1, a2, a3⟩; rcases b with ⟨b1, b2, b3⟩
  simp only [dmax, dlt]
  split_ifs <;>
    all_goals
      first
      | rfl
      | (simp_all only [Bool.or_eq_true, Bool.and_eq_true, decide_eq_true_eq,
          Bool.or_eq_false_iff, Bool.and_eq_false_iff, decide_eq_false_iff_not,
          Date.mk.injEq, not_or, not_and, not_lt]
         omega)

theorem widen_comm (o : Option (Date × Date)) (d₁ d₂ : Date) :
    widen (widen o d₁) d₂ = widen (widen o d₂) d₁ := by
  rcases o with _ | ⟨lo, hi⟩
  · show widen (some (d₁, d₁)) d₂ = widen (some (d₂, d₂)) d₁
    rw [widen_some, widen_some, dmin_comm, dmax_comm]
  · show widen (widen (some (lo, hi)) d₁) d₂ = widen (widen (some (lo, hi)) d₂) d₁
    rw [widen_some, widen_some, widen_some, widen_some,
      dmin_left_comm, dmax_right_comm]

theorem foldl_widen_some (ds : List Date) (lo hi : Date) :
    ds.foldl widen (some (lo, hi)) =
      some (ds.foldl (fun a x => dmin x a) lo, ds.foldl (fun a x => dmax a x) hi) := by
  induction ds generalizing lo hi with
  | nil => rfl
  | cons d t ih => rw [List.foldl_cons, widen_some, ih]; rfl

theorem foldl_dmin_spec (ds : List Date) (a : Date) :
    (ds.foldl (fun acc x => dmin x acc) a = a ∨
        ds.foldl (fun acc x => dmin x acc) a ∈ ds) ∧
      dlt a (ds.foldl (fun acc x => dmin x acc) a) = false ∧
      ∀ d ∈ ds, dlt d (ds.foldl (fun acc x => dmin x acc) a) = false := by
  induction ds generalizing a with
  | nil =>
    refine ⟨Or.inl rfl, dlt_irrefl a, ?_⟩
    intro d hd; cases hd
  | cons d t ih =>
    rw [List.foldl_cons]
    obtain ⟨hmem, hle, hall⟩ := ih (dmin d a)
    refine ⟨?_, ?_, ?_⟩
    · rcases hmem with h | h
      · rcases dmin_cases d a with h' | h'
        · exact Or.inr (by rw [h, h']; exact List.mem_cons_self d t)
        · exact Or.inl (by rw [h, h'])
      · exact Or.inr (List.mem_cons_of_mem d h)
    · exact dlt_false_trans hle (dmin_le_right d a)
    · intro x hx
      rcases List.mem_cons.mp hx with h | h
      · subst h; exact dlt_false_trans hle (dmin_le_left x a)
      · exact hall x h

theorem foldl_dmax_spec (ds : List Date) (a : Date) :
    (ds.foldl (fun acc x => dmax acc x) a = a ∨
        ds.foldl (fun acc x => dmax acc x) a ∈ ds) ∧
      dlt (ds.foldl (fun acc x => dmax acc x) a) a = false ∧
      ∀ d ∈ ds, dlt (ds.foldl (fun acc x => dmax acc x) a) d = false := by
  induction ds generalizing a with
  | nil =>
    refine ⟨Or.inl rfl, dlt_irrefl a, ?_⟩
    intro d hd; cases hd
  | cons d t ih =>
    rw [List.foldl_cons]
    obtain ⟨hmem, hle, hall⟩ := ih (dmax a d)
    refine ⟨?_, ?_, ?_⟩
    · rcases hmem with h | h
      · rcases dmax_cases a d with h' | h'
        · exact Or.inl (by rw [h, h'])
        · exact Or.inr (by rw [h, h']; exact List.mem_cons_self d t)
      · exact Or.inr (List.mem_cons_of_mem d h)
    · exact dlt_false_trans (dmax_ge_left a d) hle
    · intro x hx
      rcases List.mem_cons.mp hx with h | h
      · subst h; exact dlt_false_trans (dmax_ge_right a x) hle
      · exact hall x h

/-- The bounds of a widening fold from `none`: the resulting start is a
minimum of the date list and the resulting end is a maximum. -/
theorem foldl_widen_none_spec (ds : List Date) (lo hi : Date)
    (h : ds.foldl widen none = some (lo, hi)) :
    lo ∈ ds ∧ hi ∈ ds ∧ dlt hi lo = false ∧
      ∀ d ∈ ds, dlt d lo = false ∧ dlt hi d = false := by
  match ds with
  | [] => cases h
  | d :: t =>
    rw [List.foldl_cons] at h
    have hw : widen none d = some (d, d) := rfl
    rw [hw, foldl_widen_some] at h
    obtain ⟨h1, h2⟩ := Prod.mk.injEq .. ▸ Option.some.inj h
    obtain ⟨mmem, mle, mall⟩ := foldl_dmin_spec t d
    obtain ⟨xmem, xle, xall⟩ := foldl_dmax_spec t d
    rw [h1] at mmem mle mall
    rw [h2] at xmem xle xall
    have hlo : lo ∈ d :: t := by
      rcases mmem with h' | h'
      · rw [h']; exact List.mem_cons_self d t
      · exact List.mem_cons_of_mem d h'
    have hhi : hi ∈ d :: t := by
      rcases xmem with h' | h'
      · rw [h']; exact List.mem_cons_self d t
      · exact List.mem_cons_of_mem d h'
    refine ⟨hlo, hhi, ?_, ?_⟩
    · rcases List.mem_cons.mp hhi with h' | h'
      · rw [h']; exact mle
      · exact mall hi h'
    · intro x hx
      rcases List.mem_cons.mp hx with h' | h'
      · subst h'; exact ⟨mle, xle⟩
      · exact ⟨mall x h', xall x h'⟩

/-- A widening fold is invariant under permutation of the date list. -/
theorem foldl_widen_perm {ds₁ ds₂ : List Date} (h : ds₁.Perm ds₂) :
    ∀ o : Option (Date × Date), ds₁.foldl widen o = ds₂.foldl widen o := by
  induction h with
  | nil => intro o; rfl
  | cons x _ ih => intro o; rw [List.foldl_cons, List.foldl_cons]; exact ih _
  | swap x y l =>
    intro o
    rw [List.foldl_cons, List.foldl_cons, List.foldl_cons, List.foldl_cons, widen_comm]
  | trans _ _ ih₁ ih₂ => intro o; exact (ih₁ o).trans (ih₂ o)

/-- The widening fold yields `none` exactly on the empty list. -/
theorem foldl_widen_none_iff (ds : List Date) :
    ds.foldl widen none = none ↔ ds = [] := by
  match ds with
  | [] => simp
  | d :: t =>
    rw [List.foldl_cons]
    have hw : widen none d = some (d, d) := rfl
    rw [hw, foldl_widen_some]
    simp

/-! ### Association-map facts -/

theorem lookupA_append (m n : SessionMap) (k : Int) :
    lookupA (m ++ n) k =
      match lookupA m k with
      | some v => some v
      | none => lookupA n k := by
  induction m with
  | nil => rfl
  | cons e t ih =>
    rcases e with ⟨k', v⟩
    by_cases h : k' == k
    · simp only [List.cons_append, lookupA, h, if_pos]
    · simp only [List.cons_append, lookupA, h, if_neg, Bool.false_eq_true,
        not_false_eq_true]
      exact ih

theorem lookupA_eq_none_iff (m : SessionMap) (k : Int) :
    lookupA m k = none ↔ k ∉ keysA m := by
  induction m with
  | nil => simp [lookupA, keysA]
  | cons e t ih =>
    rcases e with ⟨k', v⟩
    by_cases h : k' = k
    · subst h
      simp [lookupA, keysA]
    · simp only [lookupA, beq_iff_eq, h, if_neg, not_false_eq_true, ih, keysA,
        List.map_cons, List.mem_cons]
      constructor
      · intro hn hc
        rcases hc with hc | hc
        · exact h hc.symm
        · exact hn hc
      · intro hn hc; exact hn (Or.inr hc)

theorem lookupA_some_mem {m : SessionMap} {k : Int} {v : Date × Date}
    (h : lookupA m k = some v) : (k, v) ∈ m := by
  induction m with
  | nil => cases h
  | cons e t ih =>
    rcases e with ⟨k', v'⟩
    by_cases hk : k' == k
    · simp only [lookupA, hk, if_pos] at h
      have : k' = k := by simpa using hk
      subst this
      exact List.mem_cons.mpr (Or.inl (by rw [Option.some.inj h]))
    · simp only [lookupA, hk, Bool.false_eq_true, if_neg, not_false_eq_true] at h
      exact List.mem_cons_of_mem _ (ih h)

theorem mem_lookupA_of_nodup {m : SessionMap} {k : Int} {v : Date × Date}
    (hnd : (keysA m).Nodup) (h : (k, v) ∈ m) : lookupA m k = some v := by
  induction m with
  | nil => cases h
  | cons e t ih =>
    rcases e with ⟨k', v'⟩
    rw [keysA, List.map_cons, List.nodup_cons] at hnd
    rcases List.mem_cons.mp h with h' | h'
    · obtain ⟨h1, h2⟩ := Prod.mk.injEq .. ▸ h'
      subst h1
      simp [lookupA, h2]
    · have hne : k' ≠ k := by
        intro hc
        subst hc
        exact hnd.1 (List.mem_map.mpr ⟨(k', v), h', rfl⟩)
      simp only [lookupA, beq_iff_eq, hne, if_neg, not_false_eq_true]
      exact ih hnd.2 h'

theorem lookupA_updateA {m : SessionMap} {k : Int} {w : Date × Date}
    (h : lookupA m k = some w) (v : Date × Date) (j : Int) :
    lookupA (updateA m k v) j = if j = k then some v else lookupA m j := by
  induction m with
  | nil => cases h
  | cons e t ih =>
    rcases e with ⟨k', v'⟩
    by_cases hk : k' = k
    · have hb : (k' == k) = true := by simpa using hk
      simp only [updateA, hb, if_pos]
      rw [hk]
      by_cases hj : j = k
      · simp [lookupA, hj]
      · have hb2 : (k == j) = false := by simpa using fun hc => hj hc.symm
        simp [lookupA, hb2, hj]
    · have hb : (k' == k) = false := by simpa using hk
      simp only [lookupA, hb, Bool.false_eq_true, if_neg, not_false_eq_true] at h
      simp only [updateA, hb, Bool.false_eq_true, if_neg, not_false_eq_true]
      by_cases hj : k' = j
      · have hb2 : (k' == j) = true := by simpa using hj
        have hne : ¬ j = k := fun hc => hk (hj.trans hc)
        simp [lookupA, hb2, hne]
      · have hb2 : (k' == j) = false := by simpa using hj
        simp only [lookupA, hb2, Bool.false_eq_true, if_neg, not_false_eq_true]
        exact ih h

theorem keysA_updateA (m : SessionMap) (k : Int) (v : Date × Date) :
    keysA (updateA m k v) = keysA m := by
  induction m with
  | nil => rfl
  | cons e t ih =>
    rcases e with ⟨k', v'⟩
    by_cases hk : k' == k
    · have : k' = k := by simpa using hk
      subst this
      simp [updateA, keysA]
    · simp only [updateA, hk, Bool.false_eq_true, if_neg, not_false_eq_true, keysA,
        List.map_cons, List.cons.injEq, true_and]
      exact ih

theorem stepP_def (m : SessionMap) (p : Int × Date) : stepP m p = step2 m p.1 p.2 := rfl

theorem lookupA_step2 (m : SessionMap) (k : Int) (d : Date) (j : Int) :
    lookupA (step2 m k d) j =
      if j = k then widen (lookupA m k) d else lookupA m j := by
  unfold step2
  cases hm : lookupA m k with
  | none =>
    rw [lookupA_append]
    by_cases hj : j = k
    · rw [hj, hm]
      simp [lookupA, widen]
    · have hb : (k == j) = false := by simpa using fun hc => hj hc.symm
      cases hmj : lookupA m j with
      | none => simp [lookupA, hb, hj]
      | some v => simp [hj]
  | some p =>
    rcases p with ⟨lo, hi⟩
    rw [lookupA_updateA hm]
    by_cases hj : j = k
    · simp [hj, widen]
    · simp [hj]

theorem mem_keysA_step2 (m : SessionMap) (k : Int) (d : Date) (j : Int) :
    j ∈ keysA (step2 m k d) ↔ j ∈ keysA m ∨ j = k := by
  unfold step2
  cases hm : lookupA m k with
  | none =>
    simp [keysA, List.map_append]
  | some p =>
    rcases p with ⟨lo, hi⟩
    rw [keysA_updateA]
    have hk : k ∈ keysA m := by
      by_contra hc
      rw [← lookupA_eq_none_iff] at hc
      rw [hm] at hc
      cases hc
    constructor
    · exact fun h => Or.inl h
    · intro h
      rcases h with h | h
      · exact h
      · rw [h]; exact hk

theorem nodup_keysA_step2 (m : SessionMap) (k : Int) (d : Date)
    (h : (keysA m).Nodup) : (keysA (step2 m k d)).Nodup := by
  unfold step2
  cases hm : lookupA m k with
  | none =>
    have hk : k ∉ keysA m := (lookupA_eq_none_iff m k).mp hm
    have : keysA (m ++ [(k, d, d)]) = keysA m ++ [k] := by
      simp [keysA, List.map_append]
    rw [this, List.nodup_append]
    refine ⟨h, List.nodup_singleton k, ?_⟩
    intro a ha hc
    rw [List.mem_singleton] at hc
    rw [hc] at ha
    exact hk ha
  | some p =>
    rcases p with ⟨lo, hi⟩
    rw [keysA_updateA]
    exact h

theorem datesFor_cons (k : Int) (p : Int × Date) (t : List (Int × Date)) :
    datesFor k (p :: t) =
      if p.1 == k then p.2 :: datesFor k t else datesFor k t := by
  unfold datesFor
  rw [List.filter_cons]
  split <;> simp

theorem lookupA_foldl_stepP (ps : List (Int × Date)) :
    ∀ (m : SessionMap) (k : Int),
      lookupA (ps.foldl stepP m) k = (datesFor k ps).foldl widen (lookupA m k) := by
  induction ps with
  | nil => intro m k; rfl
  | cons p t ih =>
    intro m k
    rw [List.foldl_cons, ih, datesFor_cons]
    by_cases hk : p.1 = k
    · have hb : (p.1 == k) = true := by simpa using hk
      rw [hb, if_pos rfl, List.foldl_cons]
      have : lookupA (stepP m p) k = widen (lookupA m k) p.2 := by
        rw [stepP_def, lookupA_step2, if_pos hk.symm, hk]
      rw [this]
    · have hb : (p.1 == k) = false := by simpa using hk
      rw [hb, if_neg (by simp)]
      have : lookupA (stepP m p) k = lookupA m k := by
        rw [stepP_def, lookupA_step2, if_neg (fun hc => hk hc.symm)]
      rw [this]

theorem mem_keysA_foldl_stepP (ps : List (Int × Date)) :
    ∀ (m : SessionMap) (k : Int),
      k ∈ keysA (ps.foldl stepP m) ↔ k ∈ keysA m ∨ k ∈ ps.map Prod.fst := by
  induction ps with
  | nil => intro m k; simp
  | cons p t ih =>
    intro m k
    rw [List.foldl_cons, ih, List.map_cons, List.mem_cons, stepP_def, mem_keysA_step2]
    tauto

theorem nodup_keysA_foldl_stepP (ps : List (Int × Date)) :
    ∀ m : SessionMap, (keysA m).Nodup → (keysA (ps.foldl stepP m)).Nodup := by
  induction ps with
  | nil => intro m h; exact h
  | cons p t ih =>
    intro m h
    rw [List.foldl_cons]
    exact ih _ (stepP_def m p ▸ nodup_keysA_step2 m p.1 p.2 h)

/-! ### Parse and fold facts for the aggregator -/

theorem parseRecordE_fields {r : MeetingRecord} {k : Int} {d : Date}
    (h : parseRecordE r = .ok (k, d)) :
    ∃ v s, r.session = some v ∧ pyInt v = some k ∧
      r.date = some s ∧ fromisoformat s = some d := by
  rcases r with ⟨_ | v, _ | s⟩
  · simp [parseRecordE] at h
  · simp [parseRecordE] at h
  · simp [parseRecordE] at h
  · rcases hv : pyInt v with _ | k'
    · simp [parseRecordE, hv] at h
    · rcases hs : fromisoformat s with _ | d'
      · simp [parseRecordE, hv, hs] at h
      · simp only [parseRecordE, hv, hs, Except.ok.injEq, Prod.mk.injEq] at h
        exact ⟨v, s, rfl, h.1 ▸ hv, rfl, h.2 ▸ hs⟩

theorem parseRecordE_shape {r : MeetingRecord}
    (h : r.session = none ∨ r.date = none) : parseRecordE r = .error .shape := by
  rcases r with ⟨_ | v, _ | s⟩
  · rfl
  · rfl
  · rfl
  · simp at h

theorem parseRecordE_bad_date {r : MeetingRecord} {s : String}
    (hd : r.date = some s) (hbad : fromisoformat s = none) :
    ∃ e, parseRecordE r = .error e := by
  rcases r with ⟨_ | v, rd⟩
  · exact ⟨.shape, rfl⟩
  · simp only at hd
    rw [hd]
    rcases hv : pyInt v with _ | k
    · exact ⟨.sessionParse, by simp [parseRecordE, hv]⟩
    · exact ⟨.dateParse, by simp [parseRecordE, hv, hbad]⟩

theorem aggStep_ok_of_parse {m : SessionMap} {r : MeetingRecord} {p : Int × Date}
    (hp : parseRecordE r = .ok p) : aggStep m r = .ok (stepP m p) := by
  rcases p with ⟨k, d⟩
  simp [aggStep, hp, stepP_def]

theorem aggStep_error_of_parse {m : SessionMap} {r : MeetingRecord} {e : AggError}
    (hp : parseRecordE r = .error e) : aggStep m r = .error e := by
  simp [aggStep, hp]

theorem aggFold_ok_iff (l : List MeetingRecord) :
    ∀ (m m' : SessionMap),
      aggFold l m = .ok m' ↔
        ∃ ps : List (Int × Date),
          List.Forall₂ (fun r p => parseRecordE r = .ok p) l ps ∧
            m' = ps.foldl stepP m := by
  induction l with
  | nil =>
    intro m m'
    simp [aggFold, List.forall₂_nil_left_iff, eq_comm]
  | cons r t ih =>
    intro m m'
    unfold aggFold
    cases hp : parseRecordE r with
    | error e =>
      rw [aggStep_error_of_parse hp]
      constructor
      · intro h; cases h
      · rintro ⟨ps, hf, hm⟩
        cases hf with
        | cons h₁ h₂ =>
          rw [hp] at h₁
          cases h₁
    | ok p =>
      rw [aggStep_ok_of_parse hp, ih (stepP m p) m']
      constructor
      · rintro ⟨ps', hf, hm⟩
        exact ⟨p :: ps', List.Forall₂.cons hp hf, by rw [hm, List.foldl_cons]⟩
      · rintro ⟨ps, hf, hm⟩
        cases hf with
        | cons h₁ h₂ =>
          rename_i p' ps'
          rw [hp] at h₁
          have hpp : p = p' := Except.ok.inj h₁
          rw [← hpp] at hm
          exact ⟨ps', h₂, by rw [hm, List.foldl_cons]⟩

theorem aggFold_error_of_mem {r : MeetingRecord} {e : AggError}
    (he : parseRecordE r = .error e) :
    ∀ l : List MeetingRecord, r ∈ l → ∀ m, ∃ e', aggFold l m = .error e' := by
  intro l
  induction l with
  | nil => intro hr; cases hr
  | cons r₀ t ih =>
    intro hr m
    unfold aggFold
    cases hp : parseRecordE r₀ with
    | error e₀ => exact ⟨e₀, by rw [aggStep_error_of_parse hp]⟩
    | ok p =>
      rw [aggStep_ok_of_parse hp]
      rcases List.mem_cons.mp hr with h | h
      · rw [← h, he] at hp
        cases hp
      · exact ih h (stepP m p)

theorem aggFold_ok_of_forall (l : List MeetingRecord)
    (h : ∀ r ∈ l, isOkE (parseRecordE r) = true) :
    ∀ m, ∃ m', aggFold l m = .ok m' := by
  induction l with
  | nil => intro m; exact ⟨m, rfl⟩
  | cons r t ih =>
    intro m
    have hr := h r (List.mem_cons_self r t)
    cases hp : parseRecordE r with
    | error e =>
      rw [hp] at hr
      simp [isOkE] at hr
    | ok p =>
      unfold aggFold
      rw [aggStep_ok_of_parse hp]
      exact ih (fun x hx => h x (List.mem_cons_of_mem r hx)) (stepP m p)

theorem forall₂_parse_exists (l : List MeetingRecord)
    (h : ∀ r ∈ l, isOkE (parseRecordE r) = true) :
    ∃ ps, List.Forall₂ (fun r p => parseRecordE r = .ok p) l ps := by
  induction l with
  | nil => exact ⟨[], List.Forall₂.nil⟩
  | cons r t ih =>
    obtain ⟨ps, hps⟩ := ih (fun x hx => h x (List.mem_cons_of_mem r hx))
    have hr := h r (List.mem_cons_self r t)
    cases hp : parseRecordE r with
    | error e =>
      rw [hp] at hr
      simp [isOkE] at hr
    | ok p => exact ⟨p :: ps, List.Forall₂.cons hp hps⟩

theorem forall₂_parse_eq_map :
    ∀ {l : List MeetingRecord} {ps : List (Int × Date)},
      List.Forall₂ (fun r p => parseRecordE r = .ok p) l ps → ps = l.map parseDef := by
  intro l ps h
  induction h with
  | nil => rfl
  | cons h₁ hrest ih =>
    rename_i r p t ps'
    rw [List.map_cons, ← ih]
    have hpd : parseDef r = p := by
      unfold parseDef
      rw [h₁]
    rw [hpd]

theorem forall₂_parse_sessions :
    ∀ {l : List MeetingRecord} {ps : List (Int × Date)},
      List.Forall₂ (fun r p => parseRecordE r = .ok p) l ps →
      sessionsOf l = ps.map Prod.fst := by
  intro l ps h
  induction h with
  | nil => rfl
  | cons h₁ _ ih =>
    unfold sessionsOf at ih ⊢
    rw [List.map_cons, List.filterMap_cons, h₁]
    rw [ih]

theorem forall₂_parse_dates (k : Int) :
    ∀ {l : List MeetingRecord} {ps : List (Int × Date)},
      List.Forall₂ (fun r p => parseRecordE r = .ok p) l ps →
      recSessionDates l k = datesFor k ps := by
  intro l ps h
  induction h with
  | nil => rfl
  | cons h₁ hrest ih =>
    rename_i r p t ps'
    unfold recSessionDates at ih ⊢
    rw [List.filterMap_cons, h₁, datesFor_cons, ih]
    by_cases hk : p.1 == k
    · simp [hk]
    · have hk' : (p.1 == k) = false := by
        cases hb : (p.1 == k)
        · rfl
        · exact absurd hb hk
      simp [hk']

theorem forall₂_mem_right {α β : Type} {R : α → β → Prop} :
    ∀ {l : List α} {ps : List β},
      List.Forall₂ R l ps → ∀ p ∈ ps, ∃ r ∈ l, R r p := by
  intro l ps h
  induction h with
  | nil => intro p hp; cases hp
  | cons h₁ _ ih =>
    intro p hp
    rcases List.mem_cons.mp hp with h' | h'
    · exact ⟨_, List.mem_cons_self .., h' ▸ h₁⟩
    · obtain ⟨r, hr, hrp⟩ := ih p h'
      exact ⟨r, List.mem_cons_of_mem _ hr, hrp⟩

/-! ### Sorting facts -/

theorem insertRow_perm (x : SessionRow) (l : List SessionRow) :
    (insertRow x l).Perm (x :: l) := by
  induction l with
  | nil => exact List.Perm.refl _
  | cons y ys ih =>
    unfold insertRow
    split
    · exact List.Perm.refl _
    · exact (ih.cons y).trans (List.Perm.swap x y ys)

theorem sortRows_perm (l : List SessionRow) : (sortRows l).Perm l := by
  induction l with
  | nil => exact List.Perm.refl _
  | cons x xs ih => exact (insertRow_perm x (sortRows xs)).trans (ih.cons x)

theorem mem_insertRow {x y : SessionRow} {l : List SessionRow}
    (h : y ∈ insertRow x l) : y = x ∨ y ∈ l :=
  List.mem_cons.mp ((insertRow_perm x l).mem_iff.mp h)

theorem insertRow_pairwise {x : SessionRow} {l : List SessionRow}
    (h : List.Pairwise (fun a b => b.iSession ≤ a.iSession) l) :
    List.Pairwise (fun a b => b.iSession ≤ a.iSession) (insertRow x l) := by
  induction l with
  | nil => simp [insertRow]
  | cons y ys ih =>
    rw [List.pairwise_cons] at h
    unfold insertRow
    split
    · rename_i hle
      rw [List.pairwise_cons]
      constructor
      · intro z hz
        rcases List.mem_cons.mp hz with h' | h'
        · rw [h']; exact hle
        · exact le_trans (h.1 z h') hle
      · exact List.pairwise_cons.mpr h
    · rename_i hgt
      rw [List.pairwise_cons]
      constructor
      · intro z hz
        rcases mem_insertRow hz with h' | h'
        · rw [h']; exact le_of_lt (not_le.mp hgt)
        · exact h.1 z h'
      · exact ih h.2

theorem sortRows_pairwise (l : List SessionRow) :
    List.Pairwise (fun a b => b.iSession ≤ a.iSession) (sortRows l) := by
  induction l with
  | nil => exact List.Pairwise.nil
  | cons x xs ih => exact insertRow_pairwise ih

theorem pairwise_strict_of_nodup {out : List SessionRow}
    (hs : List.Pairwise (fun a b => b.iSession ≤ a.iSession) out)
    (hn : (out.map fun r => r.iSession).Nodup) :
    List.Pairwise (fun a b => b.iSession < a.iSession) out := by
  have hne : List.Pairwise (fun a b : SessionRow => a.iSession ≠ b.iSession) out :=
    List.pairwise_map.mp hn
  exact (hs.and hne).imp fun h => lt_of_le_of_ne h.1 (Ne.symm h.2)

/-! ### Facts about successful aggregation -/

theorem aggregate_ok_cases {l : List MeetingRecord} {out : List SessionRow}
    (h : aggregate_sessions l = .ok out) :
    ∃ m, aggFold l [] = .ok m ∧ out = sortRows (m.map toRow) := by
  unfold aggregate_sessions at h
  cases hm : aggFold l [] with
  | error e => rw [hm] at h; cases h
  | ok m => rw [hm] at h; exact ⟨m, rfl, (Except.ok.inj h).symm⟩

theorem aggFold_nodup_keys {l : List MeetingRecord} {m : SessionMap}
    (h : aggFold l [] = .ok m) : (keysA m).Nodup := by
  obtain ⟨ps, hf, hm⟩ := (aggFold_ok_iff l [] m).mp h
  rw [hm]
  exact nodup_keysA_foldl_stepP ps [] List.nodup_nil

theorem rows_keys (m : SessionMap) :
    ((m.map toRow).map fun r => r.iSession) = keysA m := by
  rw [List.map_map]
  rfl

theorem agg_out_sorted {l : List MeetingRecord} {out : List SessionRow}
    (h : aggregate_sessions l = .ok out) :
    List.Pairwise (fun a b => b.iSession < a.iSession) out ∧
      (out.map fun r => r.iSession).Nodup := by
  obtain ⟨m, hm, hout⟩ := aggregate_ok_cases h
  have hnd : (keysA m).Nodup := aggFold_nodup_keys hm
  have hperm : (sortRows (m.map toRow)).Perm (m.map toRow) := sortRows_perm _
  have hknd : ((sortRows (m.map toRow)).map fun r => r.iSession).Nodup := by
    rw [(hperm.map fun r => r.iSession).nodup_iff, rows_keys]
    exact hnd
  have hsorted := sortRows_pairwise (m.map toRow)
  rw [hout]
  exact ⟨pairwise_strict_of_nodup hsorted hknd, hknd⟩

theorem agg_maps_perm_eq {l₁ l₂ : List MeetingRecord} {m₁ m₂ : SessionMap}
    (hp : l₁.Perm l₂) (h₁ : aggFold l₁ [] = .ok m₁) (h₂ : aggFold l₂ [] = .ok m₂) :
    ∀ k, lookupA m₁ k = lookupA m₂ k := by
  obtain ⟨ps₁, hf₁, hm₁⟩ := (aggFold_ok_iff _ _ _).mp h₁
  obtain ⟨ps₂, hf₂, hm₂⟩ := (aggFold_ok_iff _ _ _).mp h₂
  have e₁ := forall₂_parse_eq_map hf₁
  have e₂ := forall₂_parse_eq_map hf₂
  have hps : ps₁.Perm ps₂ := by
    rw [e₁, e₂]
    exact hp.map parseDef
  intro k
  rw [hm₁, hm₂, lookupA_foldl_stepP, lookupA_foldl_stepP]
  have hd : (datesFor k ps₁).Perm (datesFor k ps₂) := by
    unfold datesFor
    exact (hps.filter _).map _
  exact foldl_widen_perm hd _

theorem rows_perm_of_lookup_eq {m₁ m₂ : SessionMap}
    (h₁ : (keysA m₁).Nodup) (h₂ : (keysA m₂).Nodup)
    (h : ∀ k, lookupA m₁ k = lookupA m₂ k) :
    (m₁.map toRow).Perm (m₂.map toRow) := by
  have hmem : ∀ e : Int × Date × Date, e ∈ m₁ ↔ e ∈ m₂ := by
    intro e
    rcases e with ⟨k, v⟩
    constructor
    · intro hm
      have hl := mem_lookupA_of_nodup h₁ hm
      rw [h k] at hl
      exact lookupA_some_mem hl
    · intro hm
      have hl := mem_lookupA_of_nodup h₂ hm
      rw [← h k] at hl
      exact lookupA_some_mem hl
  have hnd₁ : m₁.Nodup := List.Nodup.of_map _ h₁
  have hnd₂ : m₂.Nodup := List.Nodup.of_map _ h₂
  exact ((List.perm_ext_iff_of_nodup hnd₁ hnd₂).mpr hmem).map toRow

theorem rowGT_antisymm : ∀ a b : SessionRow,
    b.iSession < a.iSession → a.iSession < b.iSession → a = b :=
  fun _ _ h₁ h₂ => absurd (h₁.trans h₂) (lt_irrefl _)

theorem agg_perm_eq {l₁ l₂ : List MeetingRecord} {out₁ out₂ : List SessionRow}
    (hp : l₁.Perm l₂)
    (h₁ : aggregate_sessions l₁ = .ok out₁) (h₂ : aggregate_sessions l₂ = .ok out₂) :
    out₁ = out₂ := by
  obtain ⟨m₁, hm₁, ho₁⟩ := aggregate_ok_cases h₁
  obtain ⟨m₂, hm₂, ho₂⟩ := aggregate_ok_cases h₂
  have hrows := rows_perm_of_lookup_eq (aggFold_nodup_keys hm₁) (aggFold_nodup_keys hm₂)
    (agg_maps_perm_eq hp hm₁ hm₂)
  have hop : out₁.Perm out₂ := by
    rw [ho₁, ho₂]
    exact (sortRows_perm _).trans (hrows.trans (sortRows_perm _).symm)
  obtain ⟨hs₁, _⟩ := agg_out_sorted h₁
  obtain ⟨hs₂, _⟩ := agg_out_sorted h₂
  exact @List.eq_of_perm_of_sorted SessionRow (fun a b => b.iSession < a.iSession)
    ⟨rowGT_antisymm⟩ _ _ hop hs₁ hs₂

theorem countP_keys (m : SessionMap) (k : Int) (h : (keysA m).Nodup) :
    List.countP (fun e => e.1 == k) m = if k ∈ keysA m then 1 else 0 := by
  induction m with
  | nil => simp [keysA]
  | cons e t ih =>
    rcases e with ⟨k', v⟩
    rw [keysA, List.map_cons, List.nodup_cons] at h
    rw [List.countP_cons]
    by_cases hk : k' = k
    · have hmem : k ∈ keysA ((k', v) :: t) := by
        rw [keysA, List.map_cons]
        exact hk ▸ List.mem_cons_self ..
      rw [if_pos hmem]
      have hz : List.countP (fun e => e.1 == k) t = 0 := by
        rw [List.countP_eq_zero]
        intro a ha hc
        have ha1 : a.1 = k := by simpa using hc
        exact h.1 (List.mem_map.mpr ⟨a, ha, hk ▸ ha1⟩)
      rw [hz]
      simp [hk]
    · have hb : ((k', v).1 == k) = false := by simpa using hk
      rw [hb]
      have hmem : k ∈ keysA ((k', v) :: t) ↔ k ∈ keysA t := by
        rw [keysA, List.map_cons, List.mem_cons]
        constructor
        · intro hc
          rcases hc with hc | hc
          · exact absurd hc.symm hk
          · exact hc
        · exact Or.inr
      simp only [hmem]
      rw [ih h.2]
      simp

theorem aggregate_ok_of_forall (l : List MeetingRecord)
    (h : ∀ r ∈ l, isOkE (parseRecordE r) = true) :
    ∃ out, aggregate_sessions l = .ok out := by
  obtain ⟨m, hm⟩ := aggFold_ok_of_forall l h []
  refine ⟨sortRows (m.map toRow), ?_⟩
  unfold aggregate_sessions
  rw [hm]

theorem agg_count {l : List MeetingRecord} {out : List SessionRow}
    (h : aggregate_sessions l = .ok out) :
    ∀ k : Int, List.countP (fun row => row.iSession == k) out =
      if k ∈ sessionsOf l then 1 else 0 := by
  obtain ⟨m, hm, hout⟩ := aggregate_ok_cases h
  obtain ⟨ps, hf, hmm⟩ := (aggFold_ok_iff _ _ _).mp hm
  have hnd := aggFold_nodup_keys hm
  intro k
  rw [hout, (sortRows_perm _).countP_eq, List.countP_map]
  have hco : List.countP ((fun row => row.iSession == k) ∘ toRow) m =
      List.countP (fun e => e.1 == k) m := rfl
  rw [hco, countP_keys m k hnd]
  have hks : k ∈ keysA m ↔ k ∈ sessionsOf l := by
    rw [hmm, mem_keysA_foldl_stepP, forall₂_parse_sessions hf]
    simp [keysA]
  by_cases hk : k ∈ keysA m
  · rw [if_pos hk, if_pos (hks.mp hk)]
  · rw [if_neg hk, if_neg fun hc => hk (hks.mpr hc)]

theorem agg_row_bounds {l : List MeetingRecord} {out : List SessionRow}
    (h : aggregate_sessions l = .ok out) :
    ∀ row ∈ out, ∃ lo hi,
      row.pszStartDate = lo.isoformat ∧ row.pszEndDate = hi.isoformat ∧
      lo ∈ recSessionDates l row.iSession ∧ hi ∈ recSessionDates l row.iSession ∧
      dlt hi lo = false ∧
      ∀ d ∈ recSessionDates l row.iSession, dlt d lo = false ∧ dlt hi d = false := by
  obtain ⟨m, hm, hout⟩ := aggregate_ok_cases h
  obtain ⟨ps, hf, hmm⟩ := (aggFold_ok_iff _ _ _).mp hm
  have hnd := aggFold_nodup_keys hm
  intro row hrow
  rw [hout] at hrow
  obtain ⟨e, hem, hrw⟩ := List.mem_map.mp ((sortRows_perm _).mem_iff.mp hrow)
  rcases e with ⟨k, lo, hi⟩
  have hlook : lookupA m k = some (lo, hi) := mem_lookupA_of_nodup hnd hem
  rw [hmm, lookupA_foldl_stepP] at hlook
  have hspec := foldl_widen_none_spec _ _ _ hlook
  have hdates : recSessionDates l k = datesFor k ps := forall₂_parse_dates k hf
  have hrI : row.iSession = k := by rw [← hrw]; rfl
  refine ⟨lo, hi, ?_, ?_, ?_, ?_, hspec.2.2.1, ?_⟩
  · rw [← hrw]; rfl
  · rw [← hrw]; rfl
  · rw [hrI, hdates]; exact hspec.1
  · rw [hrI, hdates]; exact hspec.2.1
  · rw [hrI, hdates]; exact hspec.2.2.2

theorem agg_row_source {l : List MeetingRecord} {out : List SessionRow}
    (h : aggregate_sessions l = .ok out) :
    ∀ row ∈ out, ∃ r ∈ l, ∃ v, r.session = some v ∧ pyInt v = some row.iSession := by
  obtain ⟨m, hm, hout⟩ := aggregate_ok_cases h
  obtain ⟨ps, hf, hmm⟩ := (aggFold_ok_iff _ _ _).mp hm
  intro row hrow
  rw [hout] at hrow
  obtain ⟨e, hem, hrw⟩ := List.mem_map.mp ((sortRows_perm _).mem_iff.mp hrow)
  have hkm : e.1 ∈ keysA m := List.mem_map.mpr ⟨e, hem, rfl⟩
  rw [hmm, mem_keysA_foldl_stepP] at hkm
  rcases hkm with hkm | hkm
  · simp [keysA] at hkm
  · obtain ⟨p, hps, hp1⟩ := List.mem_map.mp hkm
    obtain ⟨r, hr, hrp⟩ := forall₂_mem_right hf p hps
    rcases p with ⟨k, d⟩
    obtain ⟨v, s, hv, hpy, _, _⟩ := parseRecordE_fields hrp
    have hrI : row.iSession = e.1 := by rw [← hrw]; rfl
    exact ⟨r, hr, v, hv, by rw [hrI, ← hp1]; exact hpy⟩

/-! ### Fetch loop characterization -/

theorem range_map_shift {α : Type} (g : Nat → α) (n : Nat) :
    (List.range (n + 1)).map g = g 0 :: (List.range n).map (fun i => g (i + 1)) := by
  rw [List.range_succ_eq_map, List.map_cons, List.map_map]
  rfl

/-- Full characterization of one run of the pagination loop: the trace of
requested positions advances from `pos` in steps of 100; every page before
the last was a 200 response with a nonempty record list; the last response
determines the outcome exactly as the loop body does. -/
theorem fetch_go_spec (api : Nat → HttpResponse) :
    ∀ (fuel pos : Nat) (tr₀ : List Nat) (acc : List MeetingRecord)
      (tr : List Nat) (res : Except FetchError (List MeetingRecord)),
      fetch_go api fuel pos tr₀ acc = some (tr, res) →
      ∃ n : Nat,
        tr = tr₀ ++ (List.range (n + 1)).map (fun i => pos + 100 * i) ∧
        (∀ i < n, (api (pos + 100 * i)).status = 200 ∧
          ∃ x xs, (api (pos + 100 * i)).meetingRecord = .list (x :: xs)) ∧
        ((api (pos + 100 * n)).status ≠ 200 →
          res = .error (.http ((api (pos + 100 * n)).status))) ∧
        ((api (pos + 100 * n)).status = 200 →
          ((api (pos + 100 * n)).meetingRecord = .absent → res = .error .shapeMissing) ∧
          ((api (pos + 100 * n)).meetingRecord = .notList → res = .error .shapeNotList) ∧
          ((api (pos + 100 * n)).meetingRecord = .list [] →
            res = .ok (acc ++
              ((List.range n).map (fun i => pageOf api (pos + 100 * i))).flatten)) ∧
          ∀ x xs, (api (pos + 100 * n)).meetingRecord ≠ .list (x :: xs)) := by
  intro fuel
  induction fuel with
  | zero => intro pos tr₀ acc tr res h; cases h
  | succ fuel ih =>
    intro pos tr₀ acc tr res h
    simp only [fetch_go] at h
    split at h
    · rename_i hst
      obtain ⟨h1, h2⟩ := Prod.mk.injEq .. ▸ Option.some.inj h
      refine ⟨0, ?_, ?_, ?_, ?_⟩
      · rw [← h1]; simp [List.range_succ]
      · intro i hi; cases hi
      · intro _
        rw [← h2]
        have : pos + 100 * 0 = pos := by ring
        rw [this]
      · intro hs
        have : pos + 100 * 0 = pos := by ring
        rw [this] at hs
        exact absurd hs hst
    · rename_i hst
      have hs200 : (api pos).status = 200 := by
        by_contra hc
        exact hst hc
      split at h
      · rename_i heq
        obtain ⟨h1, h2⟩ := Prod.mk.injEq .. ▸ Option.some.inj h
        refine ⟨0, ?_, ?_, ?_, ?_⟩
        · rw [← h1]; simp [List.range_succ]
        · intro i hi; cases hi
        · intro hc
          have : pos + 100 * 0 = pos := by ring
          rw [this] at hc
          exact absurd hs200 hc
        · intro _
          have hp0 : pos + 100 * 0 = pos := by ring
          rw [hp0, heq]
          exact ⟨fun _ => h2.symm, fun hc => RecField.noConfusion hc,
            fun hc => RecField.noConfusion hc, fun x xs hc => RecField.noConfusion hc⟩
      · rename_i heq
        obtain ⟨h1, h2⟩ := Prod.mk.injEq .. ▸ Option.some.inj h
        refine ⟨0, ?_, ?_, ?_, ?_⟩
        · rw [← h1]; simp [List.range_succ]
        · intro i hi; cases hi
        · intro hc
          have : pos + 100 * 0 = pos := by ring
          rw [this] at hc
          exact absurd hs200 hc
        · intro _
          have hp0 : pos + 100 * 0 = pos := by ring
          rw [hp0, heq]
          exact ⟨fun hc => RecField.noConfusion hc, fun _ => h2.symm,
            fun hc => RecField.noConfusion hc, fun x xs hc => RecField.noConfusion hc⟩
      · rename_i heq
        obtain ⟨h1, h2⟩ := Prod.mk.injEq .. ▸ Option.some.inj h
        refine ⟨0, ?_, ?_, ?_, ?_⟩
        · rw [← h1]; simp [List.range_succ]
        · intro i hi; cases hi
        · intro hc
          have : pos + 100 * 0 = pos := by ring
          rw [this] at hc
          exact absurd hs200 hc
        · intro _
          have hp0 : pos + 100 * 0 = pos := by ring
          rw [hp0, heq]
          refine ⟨fun hc => RecField.noConfusion hc, fun hc => RecField.noConfusion hc,
            fun _ => ?_, fun x xs hc => List.noConfusion (RecField.list.inj hc)⟩
          rw [← h2]; simp
      · rename_i x xs heq
        obtain ⟨n', htr, hpages, hhttp, hterm⟩ := ih (pos + 100) (tr₀ ++ [pos]) (acc ++ (x :: xs)) tr res h
        have harith : ∀ j : Nat, pos + 100 * (j + 1) = pos + 100 + 100 * j := by
          intro j; ring
        refine ⟨n' + 1, ?_, ?_, ?_, ?_⟩
        · have htr2 : (List.range (n' + 1 + 1)).map (fun i => pos + 100 * i) =
              pos :: (List.range (n' + 1)).map (fun i => pos + 100 + 100 * i) := by
            rw [range_map_shift (fun i => pos + 100 * i) (n' + 1)]
            have h0 : pos + 100 * 0 = pos := by ring
            rw [h0]
            have ht : ∀ i ∈ List.range (n' + 1), pos + 100 * (i + 1) = pos + 100 + 100 * i :=
              fun i _ => harith i
            rw [List.map_congr_left ht]
          rw [htr, htr2, List.append_assoc, List.singleton_append]
        · intro i hi
          cases i with
          | zero =>
            have hp0 : pos + 100 * 0 = pos := by ring
            rw [hp0]
            exact ⟨hs200, x, xs, heq⟩
          | succ j =>
            have hj : j < n' := by omega
            rw [harith j]
            exact hpages j hj
        · rw [harith n']
          exact hhttp
        · rw [harith n']
          intro hs
          obtain ⟨c1, c2, c3, c4⟩ := hterm hs
          refine ⟨c1, c2, fun hl => ?_, c4⟩
          rw [c3 hl]
          have hpg : (List.range (n' + 1)).map (fun i => pageOf api (pos + 100 * i)) =
              pageOf api pos ::
                (List.range n').map (fun i => pageOf api (pos + 100 + 100 * i)) := by
            rw [range_map_shift (fun i => pageOf api (pos + 100 * i)) n']
            have h0 : pos + 100 * 0 = pos := by ring
            rw [h0]
            have ht : ∀ i ∈ List.range n',
                pageOf api (pos + 100 * (i + 1)) = pageOf api (pos + 100 + 100 * i) :=
              fun i _ => by rw [harith i]
            rw [List.map_congr_left ht]
          rw [hpg, List.flatten_cons]
          have hpage : pageOf api pos = x :: xs := by
            simp [pageOf, heq]
          rw [hpage, List.append_assoc]

theorem getLastD_concat {α : Type} (l : List α) (a d : α) :
    (l ++ [a]).getLastD d = a := by
  induction l generalizing d with
  | nil => rfl
  | cons x t ih =>
    rw [List.cons_append, List.getLastD_cons]
    exact ih x

/-- `fetch_go_spec` specialized to a full run of `fetch_meeting_records`:
initial position 1, empty trace, empty accumulator. -/
theorem fetch_spec (api : Nat → HttpResponse) {fuel : Nat} {tr : List Nat}
    {res : Except FetchError (List MeetingRecord)}
    (h : fetch_meeting_records api fuel = some (tr, res)) :
    ∃ n : Nat,
      tr = (List.range (n + 1)).map (fun i => 1 + 100 * i) ∧
      tr.getLastD 0 = 1 + 100 * n ∧
      (∀ i < n, (api (1 + 100 * i)).status = 200 ∧
        ∃ x xs, (api (1 + 100 * i)).meetingRecord = .list (x :: xs)) ∧
      ((api (1 + 100 * n)).status ≠ 200 →
        res = .error (.http ((api (1 + 100 * n)).status))) ∧
      ((api (1 + 100 * n)).status = 200 →
        ((api (1 + 100 * n)).meetingRecord = .absent → res = .error .shapeMissing) ∧
        ((api (1 + 100 * n)).meetingRecord = .notList → res = .error .shapeNotList) ∧
        ((api (1 + 100 * n)).meetingRecord = .list [] →
          res = .ok (((List.range n).map (fun i => pageOf api (1 + 100 * i))).flatten)) ∧
        ∀ x xs, (api (1 + 100 * n)).meetingRecord ≠ .list (x :: xs)) := by
  obtain ⟨n, htr, hp, hh, ht⟩ := fetch_go_spec api fuel 1 [] [] tr res h
  rw [List.nil_append] at htr
  refine ⟨n, htr, ?_, hp, hh, ?_⟩
  · rw [htr, List.range_succ, List.map_append, List.map_singleton]
    exact getLastD_concat ..
  · intro hs
    obtain ⟨c1, c2, c3, c4⟩ := ht hs
    refine ⟨c1, c2, fun hl => ?_, c4⟩
    rw [c3 hl, List.nil_append]

section Quick2

example :
    aggregate_sessions
      [⟨some (.i 210), some "2023-01-23"⟩, ⟨some (.i 210), some "2023-06-21"⟩,
        ⟨some (.i 211), some "2023-10-20"⟩] =
    .ok [⟨211, "2023-10-20", "2023-10-20"⟩, ⟨210, "2023-01-23", "2023-06-21"⟩] := by
  decide

example :
    fetch_meeting_records (fun _ => ⟨200, .list []⟩) 5 = some ([1], .ok []) := by
  decide

example : write_tsv [] = "session\tstart_date\tend_date\r\n" := by decide

end Quick2

/-! ## Sample data used by witnesses -/

/-- The three records of the spec's aggregation scenario. -/
def sampleRecords : List MeetingRecord :=
  [⟨some (.i 210), some "2023-01-23"⟩, ⟨some (.i 210), some "2023-06-21"⟩,
    ⟨some (.i 211), some "2023-10-20"⟩]

/-- The spec scenario's expected aggregated output. -/
def sampleOut : List SessionRow :=
  [⟨211, "2023-10-20", "2023-10-20"⟩, ⟨210, "2023-01-23", "2023-06-21"⟩]

/-- A permutation of `sampleRecords`. -/
def samplePerm : List MeetingRecord :=
  [⟨some (.i 211), some "2023-10-20"⟩, ⟨some (.i 210), some "2023-01-23"⟩,
    ⟨some (.i 210), some "2023-06-21"⟩]

/-- The session map the aggregation loop builds from `sampleRecords`. -/
def sampleMap : SessionMap :=
  [(210, ⟨2023, 1, 23⟩, ⟨2023, 6, 21⟩), (211, ⟨2023, 10, 20⟩, ⟨2023, 10, 20⟩)]

/-- An API returning one nonempty page at position 1, then empty pages. -/
def apiTwoPages : Nat → HttpResponse := fun p =>
  if p = 1 then ⟨200, .list [⟨some (.i 210), some "2023-01-23"⟩]⟩ else ⟨200, .list []⟩

/-- An API returning one nonempty page, then a 500 status. -/
def apiFail : Nat → HttpResponse := fun p =>
  if p = 1 then ⟨200, .list [⟨some (.i 210), some "2023-01-23"⟩]⟩ else ⟨500, .list []⟩

/-- An API whose responses carry status 200 but no `meetingRecord` field. -/
def apiAbsent : Nat → HttpResponse := fun _ => ⟨200, .absent⟩

/-! ## Claims -/

/-- C1: for every list of meeting records in which each record carries the
`session` and `date` fields with values of the documented shapes (so the
record passes the loop's validation: `int` coercion and ISO date parse
succeed), `aggregate_sessions` succeeds, produces exactly one output entry
per distinct session number and no others, and each entry's start date is a
minimum and end date a maximum of that session's record dates (so
start ≤ every date ≤ end under the date order). -/
theorem C1_aggregate_min_max (l : List MeetingRecord)
    (h : ∀ r ∈ l, isOkE (parseRecordE r) = true) :
    ∃ out, aggregate_sessions l = .ok out ∧
      (∀ k : Int, List.countP (fun row => row.iSession == k) out =
        if k ∈ sessionsOf l then 1 else 0) ∧
      ∀ row ∈ out, ∃ lo hi,
        row.pszStartDate = lo.isoformat ∧ row.pszEndDate = hi.isoformat ∧
        lo ∈ recSessionDates l row.iSession ∧ hi ∈ recSessionDates l row.iSession ∧
        ∀ d ∈ recSessionDates l row.iSession,
          dlt d lo = false ∧ dlt hi d = false := by
  obtain ⟨out, hout⟩ := aggregate_ok_of_forall l h
  refine ⟨out, hout, agg_count hout, ?_⟩
  intro row hrow
  obtain ⟨lo, hi, h1, h2, h3, h4, _, h6⟩ := agg_row_bounds hout row hrow
  exact ⟨lo, hi, h1, h2, h3, h4, h6⟩

/-- Witness for C1 at the spec's scenario records. -/
theorem C1_witness :
    (∀ r ∈ sampleRecords, isOkE (parseRecordE r) = true) ∧
      ∃ out, aggregate_sessions sampleRecords = .ok out ∧
        (∀ k : Int, List.countP (fun row => row.iSession == k) out =
          if k ∈ sessionsOf sampleRecords then 1 else 0) ∧
        ∀ row ∈ out, ∃ lo hi,
          row.pszStartDate = lo.isoformat ∧ row.pszEndDate = hi.isoformat ∧
          lo ∈ recSessionDates sampleRecords row.iSession ∧
          hi ∈ recSessionDates sampleRecords row.iSession ∧
          ∀ d ∈ recSessionDates sampleRecords row.iSession,
            dlt d lo = false ∧ dlt hi d = false :=
  ⟨by decide, C1_aggregate_min_max sampleRecords (by decide)⟩

/-- C5: aggregation is order-independent: permuting the input record list
leaves the successful aggregation result unchanged. -/
theorem C5_aggregate_perm_invariant (l₁ l₂ : List MeetingRecord)
    (out₁ out₂ : List SessionRow) (hp : l₁.Perm l₂)
    (h₁ : aggregate_sessions l₁ = .ok out₁)
    (h₂ : aggregate_sessions l₂ = .ok out₂) :
    out₁ = out₂ :=
  agg_perm_eq hp h₁ h₂

/-- Witness for C5 on the scenario records and a permutation of them. -/
theorem C5_witness :
    sampleRecords.Perm samplePerm ∧
      aggregate_sessions sampleRecords = .ok sampleOut ∧
      aggregate_sessions samplePerm = .ok sampleOut ∧
      sampleOut = sampleOut :=
  ⟨by decide, by decide, by decide,
    C5_aggregate_perm_invariant sampleRecords samplePerm sampleOut sampleOut
      (by decide) (by decide) (by decide)⟩

/-- C6: every successful aggregation output is sorted strictly descending by
session number and carries no duplicate session numbers. -/
theorem C6_output_sorted_desc (l : List MeetingRecord) (out : List SessionRow)
    (h : aggregate_sessions l = .ok out) :
    List.Pairwise (fun a b => b.iSession < a.iSession) out ∧
      (out.map fun r => r.iSession).Nodup :=
  agg_out_sorted h

/-- Witness for C6 at the spec's scenario records. -/
theorem C6_witness :
    aggregate_sessions sampleRecords = .ok sampleOut ∧
      (List.Pairwise (fun a b => b.iSession < a.iSession) sampleOut ∧
        (sampleOut.map fun r => r.iSession).Nodup) :=
  ⟨by decide, C6_output_sorted_desc sampleRecords sampleOut (by decide)⟩

/-- C7: every (start, end) pair held for a session — both in the session map
after processing any record list, hence after every prefix of the input,
and in the final output rows — satisfies start ≤ end, and both dates are
drawn from the dates of that session's records. -/
theorem C7_range_invariant :
    (∀ (l : List MeetingRecord) (m : SessionMap), aggFold l [] = .ok m →
      ∀ (k : Int) (lo hi : Date), lookupA m k = some (lo, hi) →
        dlt hi lo = false ∧ lo ∈ recSessionDates l k ∧ hi ∈ recSessionDates l k) ∧
    ∀ (l : List MeetingRecord) (out : List SessionRow),
      aggregate_sessions l = .ok out → ∀ row ∈ out, ∃ lo hi,
        row.pszStartDate = lo.isoformat ∧ row.pszEndDate = hi.isoformat ∧
        dlt hi lo = false ∧ lo ∈ recSessionDates l row.iSession ∧
        hi ∈ recSessionDates l row.iSession := by
  constructor
  · intro l m hm k lo hi hl
    obtain ⟨ps, hf, hmm⟩ := (aggFold_ok_iff _ _ _).mp hm
    rw [hmm, lookupA_foldl_stepP] at hl
    have hspec := foldl_widen_none_spec _ _ _ hl
    have hdates := forall₂_parse_dates k hf
    rw [hdates]
    exact ⟨hspec.2.2.1, hspec.1, hspec.2.1⟩
  · intro l out hout row hrow
    obtain ⟨lo, hi, h1, h2, h3, h4, h5, _⟩ := agg_row_bounds hout row hrow
    exact ⟨lo, hi, h1, h2, h5, h3, h4⟩

/-- Witness for C7 on the session map built from the scenario records. -/
theorem C7_witness :
    aggFold sampleRecords [] = .ok sampleMap ∧
      lookupA sampleMap 210 = some (⟨2023, 1, 23⟩, ⟨2023, 6, 21⟩) ∧
      (dlt ⟨2023, 6, 21⟩ ⟨2023, 1, 23⟩ = false ∧
        Date.mk 2023 1 23 ∈ recSessionDates sampleRecords 210 ∧
        Date.mk 2023 6 21 ∈ recSessionDates sampleRecords 210) :=
  ⟨by decide, by decide,
    C7_range_invariant.1 sampleRecords sampleMap (by decide) 210
      ⟨2023, 1, 23⟩ ⟨2023, 6, 21⟩ (by decide)⟩

/-- C8: sessions are keyed by the `int` coercion of the record's `session`
value: a string `"210"` and an integer `210` merge into one entry, and every
output session number arises as `int` of some input record's session value
(so it is an integer even when the API delivers strings). -/
theorem C8_int_coercion :
    aggregate_sessions
        [⟨some (.s "210"), some "2023-01-23"⟩, ⟨some (.i 210), some "2023-06-21"⟩] =
      .ok [⟨210, "2023-01-23", "2023-06-21"⟩] ∧
    ∀ (l : List MeetingRecord) (out : List SessionRow),
      aggregate_sessions l = .ok out → ∀ row ∈ out,
        ∃ r ∈ l, ∃ v, r.session = some v ∧ pyInt v = some row.iSession :=
  ⟨by decide, fun _ _ h => agg_row_source h⟩

/-- Witness for C8's universal part at the spec's scenario records. -/
theorem C8_witness :
    aggregate_sessions sampleRecords = .ok sampleOut ∧
      ∀ row ∈ sampleOut, ∃ r ∈ sampleRecords, ∃ v,
        r.session = some v ∧ pyInt v = some row.iSession :=
  ⟨by decide, C8_int_coercion.2 sampleRecords sampleOut (by decide)⟩

/-- C9: a record whose `date` field is present but does not parse as an ISO
date makes the whole aggregation raise an error (the record is not skipped
and no aggregated result is returned); the failure at that record is the
date-parse error when its session value is well-formed. -/
theorem C9_invalid_date_error (l : List MeetingRecord) (r : MeetingRecord)
    (s : String) (hr : r ∈ l) (hd : r.date = some s)
    (hbad : fromisoformat s = none) :
    (∃ e, aggregate_sessions l = .error e) ∧
      ∀ v, r.session = some v → (pyInt v).isSome = true →
        parseRecordE r = .error .dateParse := by
  constructor
  · obtain ⟨e, he⟩ := parseRecordE_bad_date hd hbad
    obtain ⟨e', he'⟩ := aggFold_error_of_mem he l hr []
    refine ⟨e', ?_⟩
    unfold aggregate_sessions
    rw [he']
  · intro v hv hsome
    rcases r with ⟨rs, rd⟩
    simp only at hv hd
    rw [hv, hd]
    cases hpy : pyInt v with
    | none => rw [hpy] at hsome; cases hsome
    | some k => simp [parseRecordE, hpy, hbad]

/-- Witness for C9 on a record with month 13. -/
theorem C9_witness :
    (⟨some (.i 210), some "2023-13-01"⟩ : MeetingRecord) ∈
        [(⟨some (.i 210), some "2023-13-01"⟩ : MeetingRecord)] ∧
      (∃ e, aggregate_sessions
        [(⟨some (.i 210), some "2023-13-01"⟩ : MeetingRecord)] = .error e) ∧
      ∀ v, (⟨some (.i 210), some "2023-13-01"⟩ : MeetingRecord).session = some v →
        (pyInt v).isSome = true →
        parseRecordE ⟨some (.i 210), some "2023-13-01"⟩ = .error .dateParse := by
  refine ⟨by decide, ?_⟩
  exact C9_invalid_date_error [⟨some (.i 210), some "2023-13-01"⟩]
    ⟨some (.i 210), some "2023-13-01"⟩ "2023-13-01" (by decide) rfl (by decide)

/-- C10: aggregating an empty record list yields the empty list, and the
TSV writer then emits exactly the header row and no data rows. -/
theorem C10_empty_header_only :
    aggregate_sessions ([] : List MeetingRecord) = .ok [] ∧
      write_tsv [] = "session\tstart_date\tend_date\r\n" ∧
      run_pipeline [] = .ok "session\tstart_date\tend_date\r\n" :=
  ⟨rfl, rfl, rfl⟩

/-- C2 counterexample: the very first request of the pagination loop uses
`recordPosition` 1, not 0 — with an API that immediately returns an empty
page, the trace of requested offsets is `[1]`, not the `[0]` the claimed
sequence 0, 100, 200, … would give. -/
theorem C2_counterexample :
    fetch_meeting_records (fun _ => ⟨200, .list []⟩) 1 = some ([1], .ok []) ∧
      ([1] : List Nat) ≠ [0] :=
  ⟨by decide, by decide⟩

/-- C2 (amended): the requested `recordPosition` offsets form the strictly
increasing sequence 1, 101, 201, …, the loop stops at the first empty page,
and the result concatenates all (nonempty) pages before it in request
order. -/
theorem C2_amended_pagination (api : Nat → HttpResponse) (fuel : Nat)
    (tr : List Nat) (out : List MeetingRecord)
    (h : fetch_meeting_records api fuel = some (tr, .ok out)) :
    ∃ n : Nat,
      tr = (List.range (n + 1)).map (fun i => 1 + 100 * i) ∧
      List.Pairwise (· < ·) tr ∧
      (∀ i < n, pageOf api (1 + 100 * i) ≠ []) ∧
      (api (1 + 100 * n)).meetingRecord = .list [] ∧
      out = ((List.range n).map (fun i => pageOf api (1 + 100 * i))).flatten := by
  obtain ⟨n, htr, hlast, hp, hh, ht⟩ := fetch_spec api h
  have hs : (api (1 + 100 * n)).status = 200 := by
    by_contra hc
    exact Except.noConfusion (hh hc)
  obtain ⟨c1, c2, c3, c4⟩ := ht hs
  have hpw : List.Pairwise (· < ·) tr := by
    rw [htr]
    exact List.Pairwise.map _ (fun a b hab => by omega)
      (List.pairwise_lt_range (n + 1))
  have hne : ∀ i < n, pageOf api (1 + 100 * i) ≠ [] := by
    intro i hi
    obtain ⟨_, x, xs, hx⟩ := hp i hi
    simp [pageOf, hx]
  cases hmr : (api (1 + 100 * n)).meetingRecord with
  | absent => exact absurd (c1 hmr) (fun hc => Except.noConfusion hc)
  | notList => exact absurd (c2 hmr) (fun hc => Except.noConfusion hc)
  | list rs =>
    cases rs with
    | nil =>
      exact ⟨n, htr, hpw, hne, hmr, Except.ok.inj (c3 hmr)⟩
    | cons x xs => exact absurd hmr (c4 x xs)

/-- Witness for C2 (amended) on a two-page run. -/
theorem C2_witness :
    fetch_meeting_records apiTwoPages 3 =
        some ([1, 101], .ok [⟨some (.i 210), some "2023-01-23"⟩]) ∧
      ∃ n : Nat,
        ([1, 101] : List Nat) = (List.range (n + 1)).map (fun i => 1 + 100 * i) ∧
        List.Pairwise (· < ·) ([1, 101] : List Nat) ∧
        (∀ i < n, pageOf apiTwoPages (1 + 100 * i) ≠ []) ∧
        (apiTwoPages (1 + 100 * n)).meetingRecord = .list [] ∧
        [(⟨some (.i 210), some "2023-01-23"⟩ : MeetingRecord)] =
          ((List.range n).map (fun i => pageOf apiTwoPages (1 + 100 * i))).flatten :=
  ⟨by decide,
    C2_amended_pagination apiTwoPages 3 [1, 101]
      [⟨some (.i 210), some "2023-01-23"⟩] (by decide)⟩

/-- C3 counterexample: a 204 response is a 2xx success status, yet the fetch
raises a transport error on it, because the code accepts exactly status
200. -/
theorem C3_counterexample :
    fetch_meeting_records (fun _ => ⟨204, .list []⟩) 1 =
        some ([1], .error (.http 204)) ∧
      200 ≤ 204 ∧ 204 < 300 :=
  ⟨by decide, by decide, by decide⟩

/-- C3 (amended): the fetch raises a transport error if and only if a page
response has a status other than 200, with no retry and no partial results:
every page before the last had status 200, a non-200 last page makes the
whole fetch fail immediately with that status, and with a 200 last page no
transport error is raised. -/
theorem C3_amended_status (api : Nat → HttpResponse) (fuel : Nat)
    (tr : List Nat) (res : Except FetchError (List MeetingRecord))
    (h : fetch_meeting_records api fuel = some (tr, res)) :
    (∀ p ∈ tr.dropLast, (api p).status = 200) ∧
      ((api (tr.getLastD 0)).status ≠ 200 →
        res = .error (.http ((api (tr.getLastD 0)).status))) ∧
      ((api (tr.getLastD 0)).status = 200 →
        ∀ st, res ≠ .error (.http st)) := by
  obtain ⟨n, htr, hlast, hp, hh, ht⟩ := fetch_spec api h
  refine ⟨?_, ?_, ?_⟩
  · intro p hpmem
    rw [htr, List.range_succ, List.map_append, List.map_singleton,
      List.dropLast_concat] at hpmem
    obtain ⟨i, hi, hpi⟩ := List.mem_map.mp hpmem
    rw [← hpi]
    exact (hp i (List.mem_range.mp hi)).1
  · rw [hlast]
    exact hh
  · rw [hlast]
    intro hs st hc
    obtain ⟨c1, c2, c3, c4⟩ := ht hs
    cases hmr : (api (1 + 100 * n)).meetingRecord with
    | absent =>
      rw [c1 hmr] at hc
      exact FetchError.noConfusion (Except.error.inj hc)
    | notList =>
      rw [c2 hmr] at hc
      exact FetchError.noConfusion (Except.error.inj hc)
    | list rs =>
      cases rs with
      | nil =>
        rw [c3 hmr] at hc
        exact Except.noConfusion hc
      | cons x xs => exact c4 x xs hmr

/-- Witness for C3 (amended) on a run whose second page returns 500. -/
theorem C3_witness :
    fetch_meeting_records apiFail 3 = some ([1, 101], .error (.http 500)) ∧
      (∀ p ∈ ([1, 101] : List Nat).dropLast, (apiFail p).status = 200) ∧
      ((apiFail (([1, 101] : List Nat).getLastD 0)).status ≠ 200 →
        (Except.error (FetchError.http 500) :
            Except FetchError (List MeetingRecord)) =
          .error (.http ((apiFail (([1, 101] : List Nat).getLastD 0)).status))) ∧
      ((apiFail (([1, 101] : List Nat).getLastD 0)).status = 200 →
        ∀ st, (Except.error (FetchError.http 500) :
          Except FetchError (List MeetingRecord)) ≠ .error (.http st)) := by
  refine ⟨by decide, ?_⟩
  exact C3_amended_status apiFail 3 [1, 101] (.error (.http 500)) (by decide)

/-- C4: shape defects are fatal: a 200 response without a `meetingRecord`
field, or with a non-list `meetingRecord`, fails the fetch with the matching
shape error; a record missing `session` or `date` makes the
aggregate-and-write pipeline fail before producing any output content; in
particular a record missing only `date` raises exactly the shape error. -/
theorem C4_shape_errors_fatal :
    (∀ (api : Nat → HttpResponse) (fuel : Nat) (tr : List Nat)
        (res : Except FetchError (List MeetingRecord)),
      fetch_meeting_records api fuel = some (tr, res) →
      (api (tr.getLastD 0)).status = 200 →
      ((api (tr.getLastD 0)).meetingRecord = .absent →
          res = .error .shapeMissing) ∧
        ((api (tr.getLastD 0)).meetingRecord = .notList →
          res = .error .shapeNotList)) ∧
    (∀ l : List MeetingRecord, (∃ r ∈ l, r.session = none ∨ r.date = none) →
      ∃ e, run_pipeline l = .error e) ∧
    run_pipeline [⟨some (.i 210), none⟩] = .error .shape := by
  refine ⟨?_, ?_, by decide⟩
  · intro api fuel tr res h hs
    obtain ⟨n, htr, hlast, hp, hh, ht⟩ := fetch_spec api h
    rw [hlast] at hs ⊢
    obtain ⟨c1, c2, _, _⟩ := ht hs
    exact ⟨c1, c2⟩
  · rintro l ⟨r, hr, hmiss⟩
    have he := parseRecordE_shape hmiss
    obtain ⟨e', he'⟩ := aggFold_error_of_mem he l hr []
    refine ⟨e', ?_⟩
    unfold run_pipeline aggregate_sessions
    rw [he']

/-- Witness for C4: a 200 response with an absent field on a concrete run,
and a record missing `date` in a concrete pipeline run. -/
theorem C4_witness :
    (((apiAbsent (([1] : List Nat).getLastD 0)).meetingRecord = .absent →
        (Except.error FetchError.shapeMissing :
          Except FetchError (List MeetingRecord)) = .error .shapeMissing) ∧
      ((apiAbsent (([1] : List Nat).getLastD 0)).meetingRecord = .notList →
        (Except.error FetchError.shapeMissing :
          Except FetchError (List MeetingRecord)) = .error .shapeNotList)) ∧
      ∃ e, run_pipeline [⟨some (.i 210), none⟩] = .error e :=
  ⟨C4_shape_errors_fatal.1 apiAbsent 1 [1] (.error .shapeMissing)
      (by decide) (by decide),
    C4_shape_errors_fatal.2.1 [⟨some (.i 210), none⟩]
      ⟨⟨some (.i 210), none⟩, by decide, by decide⟩⟩
